import Mathlib

/-!
Verification of the hotqueue message-queue adapter (src/hotqueue.py).

The adapter maps a named logical queue onto a single list key in a keyed
ordered-list store (Redis).  We shallowly embed the store as a function from
keys to lists of serialized payloads, the Redis list primitives as pure
state-passing functions, and the `HotQueue` / `HotStack` class pair as a
structure carrying the queue name, the serializer, and which end of the list
its pop methods use (the `redis_pop_method` / `redis_block_pop_method` class
attributes: `lpop`/`blpop` for `HotQueue`, `rpop`/`brpop` for `HotStack`).
-/

/-- The keyed store: every key holds an ordered list of payloads of type `β`.
An absent key is represented by the empty list (Redis treats a deleted or
never-created list key and an empty list identically for these commands). -/
def Store (β : Type) : Type := String → List β

/-- Replace the list held at `key`, leaving every other key unchanged. -/
def setKey {β : Type} (key : String) (l : List β) (st : Store β) : Store β :=
  fun k => if k = key then l else st k

/-- Redis RPUSH of a single payload: append `b` at the tail of the list at `key`. -/
def rpush {β : Type} (key : String) (b : β) (st : Store β) : Store β :=
  setKey key (st key ++ [b]) st

/-- Redis LPUSH of a single payload: insert `b` at the head of the list at `key`. -/
def lpush {β : Type} (key : String) (b : β) (st : Store β) : Store β :=
  setKey key (b :: st key) st

/-- Redis LPOP: remove and return the head of the list at `key`;
`none` and no state change when the list is empty. -/
def lpop {β : Type} (key : String) (st : Store β) : Option β × Store β :=
  match st key with
  | [] => (none, st)
  | x :: xs => (some x, setKey key xs st)

/-- Redis RPOP: remove and return the tail element of the list at `key`;
`none` and no state change when the list is empty. -/
def rpop {β : Type} (key : String) (st : Store β) : Option β × Store β :=
  match st key with
  | [] => (none, st)
  | x :: xs => ((x :: xs).getLast?, setKey key ((x :: xs).dropLast) st)

/-- Redis BLPOP: blocking pop from the head.  When the list is non-empty the
element is returned immediately as a `(key, value)` pair; when it stays empty
until the timeout elapses the result is `none`.  The timeout parameter does
not affect which element is returned, only how long the call may suspend,
which has no counterpart in this pure embedding. -/
def blpop {β : Type} (key : String) (timeout : Nat) (st : Store β) :
    Option (String × β) × Store β :=
  match st key with
  | [] => (none, st)
  | x :: xs => (some (key, x), setKey key xs st)

/-- Redis BRPOP: blocking pop from the tail, mirror image of `blpop`. -/
def brpop {β : Type} (key : String) (timeout : Nat) (st : Store β) :
    Option (String × β) × Store β :=
  match st key with
  | [] => (none, st)
  | x :: xs => (((x :: xs).getLast?).map (fun v => (key, v)),
                setKey key ((x :: xs).dropLast) st)

/-- Redis LLEN: number of elements in the list at `key`; a pure read. -/
def llen {β : Type} (key : String) (st : Store β) : Nat :=
  (st key).length

/-- Redis DEL on a list key: afterwards the key is absent (empty list). -/
def delKey {β : Type} (key : String) (st : Store β) : Store β :=
  setKey key [] st

/-- The pluggable serializer: a `dumps`/`loads` capability pair
(`pickle` by default in the source). -/
structure Serializer (α β : Type) where
  dumps : α → β
  loads : β → α

/-- Which end of the list the queue's pop methods use: `HotQueue` sets
`redis_pop_method = lpop` and `redis_block_pop_method = blpop` (head),
`HotStack` overrides them to `rpop` / `brpop` (tail). -/
inductive PopEnd : Type
  | head : PopEnd
  | tail : PopEnd
deriving DecidableEq

/-- `key_for_name(name)`: the Redis key used to store the given queue name,
`'hotqueue:%s' % name`. -/
def key_for_name (name : String) : String :=
  "hotqueue:" ++ name

/-- The state of a `HotQueue` (or `HotStack`) instance: its name, its
serializer, and the pop-end selected by the class's
`redis_pop_method` / `redis_block_pop_method` attributes. -/
structure HotQueue (α β : Type) where
  name : String
  serializer : Serializer α β
  popEnd : PopEnd

/-- `HotQueue(name, serializer)`: the FIFO class, popping from the head. -/
def mkHotQueue {α β : Type} (name : String) (ser : Serializer α β) : HotQueue α β :=
  ⟨name, ser, PopEnd.head⟩

/-- `HotStack(name, serializer)`: the LIFO subclass, popping from the tail.
It overrides only the two pop-method attributes and inherits everything else. -/
def mkHotStack {α β : Type} (name : String) (ser : Serializer α β) : HotQueue α β :=
  ⟨name, ser, PopEnd.tail⟩

/-- `HotQueue.key` property: `key_for_name(self.name)`. -/
def HotQueue.key {α β : Type} (q : HotQueue α β) : String :=
  key_for_name q.name

/-- `HotQueue.__len__`: `self.__redis.llen(self.key)`. -/
def HotQueue.length {α β : Type} (q : HotQueue α β) (st : Store β) : Nat :=
  llen q.key st

/-- `HotQueue.clear`: `self.__redis.delete(self.key)`. -/
def HotQueue.clear {α β : Type} (q : HotQueue α β) (st : Store β) : Store β :=
  delKey q.key st

/-- `timeout` normalization inside blocking `get`:
`if timeout is None: timeout = 0`. -/
def effTimeout (timeout : Option Nat) : Nat :=
  timeout.getD 0

/-- `HotQueue.get(block=False, timeout=None)`: pop one raw payload from the
policy-determined end (blocking variant returns a `(key, value)` pair whose
second component is taken, `msg = msg[1]`), then deserialize it with
`self.serializer.loads` only when a payload was actually retrieved
(`if msg is not None`). -/
def HotQueue.get {α β : Type} (q : HotQueue α β) (block : Bool)
    (timeout : Option Nat) (st : Store β) : Option α × Store β :=
  if block then
    let t := effTimeout timeout
    let pr := match q.popEnd with
      | PopEnd.head => blpop q.key t st
      | PopEnd.tail => brpop q.key t st
    ((pr.1.map Prod.snd).map q.serializer.loads, pr.2)
  else
    let pr := match q.popEnd with
      | PopEnd.head => lpop q.key st
      | PopEnd.tail => rpop q.key st
    (pr.1.map q.serializer.loads, pr.2)

/-- `HotQueue.put(*msgs)`: for each message in call order, serialize it and
RPUSH it onto the tail of the list. -/
def HotQueue.put {α β : Type} (q : HotQueue α β) : List α → Store β → Store β
  | [], st => st
  | m :: rest, st => q.put rest (rpush q.key (q.serializer.dumps m) st)

/-- `HotQueue.put_head(*msgs)`: for each message in call order, serialize it
and LPUSH it onto the head of the list. -/
def HotQueue.put_head {α β : Type} (q : HotQueue α β) : List α → Store β → Store β
  | [], st => st
  | m :: rest, st => q.put_head rest (lpush q.key (q.serializer.dumps m) st)

/-- Iterate `get` a fixed number of times, collecting the results in order. -/
def HotQueue.getN {α β : Type} (q : HotQueue α β) (block : Bool)
    (timeout : Option Nat) : Nat → Store β → List (Option α) × Store β
  | 0, st => ([], st)
  | n + 1, st =>
      let pr := q.get block timeout st
      let rest := q.getN block timeout n pr.2
      (pr.1 :: rest.1, rest.2)

/-- `put` with a fallible serializer (`dumps` may raise): messages are
serialized and RPUSHed one at a time, and the loop stops at the first
message whose serialization fails, leaving the earlier pushes in place. -/
def putE {α β ε : Type} (key : String) (dumpsE : α → Except ε β) :
    List α → Store β → Store β × Option ε
  | [], st => (st, none)
  | m :: rest, st =>
      match dumpsE m with
      | Except.error e => (st, some e)
      | Except.ok b => putE key dumpsE rest (rpush key b st)

/-- `put_head` with a fallible serializer, LPUSHing one message at a time. -/
def put_headE {α β ε : Type} (key : String) (dumpsE : α → Except ε β) :
    List α → Store β → Store β × Option ε
  | [], st => (st, none)
  | m :: rest, st =>
      match dumpsE m with
      | Except.error e => (st, some e)
      | Except.ok b => put_headE key dumpsE rest (lpush key b st)

theorem setKey_same {β : Type} (key : String) (l : List β) (st : Store β) :
    setKey key l st key = l := by
  simp [setKey]

theorem setKey_other {β : Type} {key k : String} (l : List β) (st : Store β)
    (h : k ≠ key) : setKey key l st k = st k := by
  simp [setKey, h]

theorem get_head_nil {α β : Type} (q : HotQueue α β) (b : Bool) (t : Option Nat)
    (st : Store β) (hq : q.popEnd = PopEnd.head) (h : st q.key = []) :
    q.get b t st = (none, st) := by
  cases b <;> simp [HotQueue.get, hq, lpop, blpop, h]

theorem get_tail_nil {α β : Type} (q : HotQueue α β) (b : Bool) (t : Option Nat)
    (st : Store β) (hq : q.popEnd = PopEnd.tail) (h : st q.key = []) :
    q.get b t st = (none, st) := by
  cases b <;> simp [HotQueue.get, hq, rpop, brpop, h]

theorem get_nil {α β : Type} (q : HotQueue α β) (b : Bool) (t : Option Nat)
    (st : Store β) (h : st q.key = []) :
    q.get b t st = (none, st) := by
  cases hq : q.popEnd
  · exact get_head_nil q b t st hq h
  · exact get_tail_nil q b t st hq h

theorem get_head_cons {α β : Type} (q : HotQueue α β) (b : Bool) (t : Option Nat)
    (st : Store β) (x : β) (xs : List β)
    (hq : q.popEnd = PopEnd.head) (h : st q.key = x :: xs) :
    q.get b t st = (some (q.serializer.loads x), setKey q.key xs st) := by
  cases b <;> simp [HotQueue.get, hq, lpop, blpop, h]

theorem get_tail_concat {α β : Type} (q : HotQueue α β) (b : Bool) (t : Option Nat)
    (st : Store β) (x : β) (xs : List β)
    (hq : q.popEnd = PopEnd.tail) (h : st q.key = xs ++ [x]) :
    q.get b t st = (some (q.serializer.loads x), setKey q.key xs st) := by
  cases xs with
  | nil =>
      cases b <;> simp [HotQueue.get, hq, rpop, brpop, h]
  | cons a as =>
      have h' : st q.key = a :: (as ++ [x]) := by simpa using h
      have hlast : (a :: (as ++ [x])).getLast? = some x := by
        rw [show a :: (as ++ [x]) = (a :: as) ++ [x] from rfl]
        exact List.getLast?_concat _
      have hdrop : (a :: (as ++ [x])).dropLast = a :: as := by
        rw [show a :: (as ++ [x]) = (a :: as) ++ [x] from rfl]
        exact List.dropLast_concat
      cases b <;> simp [HotQueue.get, hq, rpop, brpop, h', hlast, hdrop]

theorem get_some_shrinks {α β : Type} (q : HotQueue α β) (b : Bool)
    (t : Option Nat) (st : Store β) (m : α) (st' : Store β)
    (h : q.get b t st = (some m, st')) :
    (st' q.key).length < (st q.key).length := by
  cases hl : st q.key with
  | nil =>
      rw [get_nil q b t st hl] at h
      simp at h
  | cons x xs =>
      cases hq : q.popEnd
      · rw [get_head_cons q b t st x xs hq hl] at h
        have hst : st' = setKey q.key xs st := (congrArg Prod.snd h).symm
        subst hst
        simp [setKey_same, hl]
      · have hconc : st q.key = (x :: xs).dropLast ++ [(x :: xs).getLast (by simp)] := by
          rw [hl]
          exact (List.dropLast_append_getLast (by simp)).symm
        rw [get_tail_concat q b t st _ _ hq hconc] at h
        have hst : st' = setKey q.key (x :: xs).dropLast st := (congrArg Prod.snd h).symm
        subst hst
        rw [setKey_same]
        simp [List.length_dropLast]

/-- The loop inside `HotQueue.consume`: repeatedly call `get` with the given
arguments, yielding messages until a `get` call returns `None`
(`while True: msg = self.get(**kwargs); if msg is None: break; yield msg`). -/
def consumeGo {α β : Type} (q : HotQueue α β) (b : Bool) (t : Option Nat)
    (st : Store β) : List α × Store β :=
  match h : q.get b t st with
  | (none, st') => ([], st')
  | (some m, st') =>
      let rest := consumeGo q b t st'
      (m :: rest.1, rest.2)
termination_by (st q.key).length
decreasing_by
  exact get_some_shrinks q b t st m st' h

/-- `HotQueue.consume(**kwargs)`: `kwargs.setdefault('block', True)`, then
loop on `get`.  The `block` argument is `none` when the caller did not pass
one, `some b` when the caller passed `block=b` explicitly. -/
def HotQueue.consume {α β : Type} (q : HotQueue α β) (block : Option Bool)
    (timeout : Option Nat) (st : Store β) : List α × Store β :=
  consumeGo q (block.getD true) timeout st

theorem put_key {α β : Type} (q : HotQueue α β) (msgs : List α) :
    ∀ st : Store β, (q.put msgs st) q.key = st q.key ++ msgs.map q.serializer.dumps := by
  induction msgs with
  | nil => intro st; simp [HotQueue.put]
  | cons m rest ih =>
      intro st
      simp [HotQueue.put, ih, rpush, setKey_same]

theorem put_head_key {α β : Type} (q : HotQueue α β) (msgs : List α) :
    ∀ st : Store β,
      (q.put_head msgs st) q.key = (msgs.map q.serializer.dumps).reverse ++ st q.key := by
  induction msgs with
  | nil => intro st; simp [HotQueue.put_head]
  | cons m rest ih =>
      intro st
      simp [HotQueue.put_head, ih, lpush, setKey_same]

theorem getN_head {α β : Type} (q : HotQueue α β) (b : Bool) (t : Option Nat)
    (hq : q.popEnd = PopEnd.head) :
    ∀ (j : Nat) (st : Store β), j ≤ (st q.key).length →
      (q.getN b t j st).1
          = ((st q.key).take j).map (fun v => some (q.serializer.loads v))
        ∧ ((q.getN b t j st).2) q.key = (st q.key).drop j := by
  intro j
  induction j with
  | zero => intro st _; simp [HotQueue.getN]
  | succ n ih =>
      intro st h
      cases hl : st q.key with
      | nil => rw [hl] at h; simp at h
      | cons x xs =>
          have hget := get_head_cons q b t st x xs hq hl
          simp only [HotQueue.getN, hget]
          have hx : (setKey q.key xs st) q.key = xs := setKey_same _ _ _
          have hlen : n ≤ xs.length := by
            rw [hl] at h; simpa using h
          have hrec := ih (setKey q.key xs st) (by rw [hx]; exact hlen)
          rw [hx] at hrec
          simp [hl, hrec.1, hrec.2]

theorem getN_tail_drain {α β : Type} (q : HotQueue α β) (b : Bool) (t : Option Nat)
    (hq : q.popEnd = PopEnd.tail) :
    ∀ (bs : List β) (st : Store β), st q.key = bs →
      (q.getN b t bs.length st).1
          = bs.reverse.map (fun v => some (q.serializer.loads v))
        ∧ ((q.getN b t bs.length st).2) q.key = [] := by
  intro bs
  induction bs using List.reverseRecOn with
  | nil => intro st h; simp [HotQueue.getN, h]
  | append_singleton l x ih =>
      intro st h
      have hget := get_tail_concat q b t st x l hq h
      have hlen : (l ++ [x]).length = l.length + 1 := by simp
      rw [hlen]
      simp only [HotQueue.getN, hget]
      have hx : (setKey q.key l st) q.key = l := setKey_same _ _ _
      have hrec := ih (setKey q.key l st) hx
      simp [hrec.1, hrec.2]

theorem get_len {α β : Type} (q : HotQueue α β) (b : Bool) (t : Option Nat)
    (st : Store β) (h : st q.key ≠ []) :
    (((q.get b t st).2) q.key).length = (st q.key).length - 1 := by
  cases hl : st q.key with
  | nil => exact absurd hl h
  | cons x xs =>
      cases hq : q.popEnd
      · rw [get_head_cons q b t st x xs hq hl]
        simp [setKey_same]
      · have hconc : st q.key = (x :: xs).dropLast ++ [(x :: xs).getLast (by simp)] := by
          rw [hl]
          exact (List.dropLast_append_getLast (by simp)).symm
        rw [get_tail_concat q b t st _ _ hq hconc]
        simp [setKey_same, List.length_dropLast]

theorem getN_length {α β : Type} (q : HotQueue α β) (b : Bool) (t : Option Nat) :
    ∀ (j : Nat) (st : Store β), j ≤ (st q.key).length →
      (((q.getN b t j st).2) q.key).length = (st q.key).length - j := by
  intro j
  induction j with
  | zero => intro st _; simp [HotQueue.getN]
  | succ n ih =>
      intro st h
      have hne : st q.key ≠ [] := by
        intro hnil
        rw [hnil] at h
        simp at h
      simp only [HotQueue.getN]
      have h1 := get_len q b t st hne
      have h2 : n ≤ (((q.get b t st).2) q.key).length := by omega
      have hrec := ih ((q.get b t st).2) h2
      rw [hrec, h1]
      omega

theorem consumeGo_nil {α β : Type} (q : HotQueue α β) (b : Bool) (t : Option Nat)
    (st : Store β) (h : st q.key = []) : consumeGo q b t st = ([], st) := by
  rw [consumeGo]
  split
  · rename_i st' heq
    rw [get_nil q b t st h] at heq
    have hst : st = st' := congrArg Prod.snd heq
    rw [← hst]
  · rename_i m st' heq
    rw [get_nil q b t st h] at heq
    simp at heq

theorem consumeGo_head_drain {α β : Type} (q : HotQueue α β) (b : Bool)
    (t : Option Nat) (hq : q.popEnd = PopEnd.head) :
    ∀ (bs : List β) (st : Store β), st q.key = bs →
      (consumeGo q b t st).1 = bs.map q.serializer.loads
        ∧ ((consumeGo q b t st).2) q.key = [] := by
  intro bs
  induction bs with
  | nil =>
      intro st h
      rw [consumeGo_nil q b t st h]
      simpa using h
  | cons x xs ih =>
      intro st h
      have hget := get_head_cons q b t st x xs hq h
      rw [consumeGo]
      split
      · rename_i st' heq
        rw [hget] at heq
        simp at heq
      · rename_i m st' heq
        rw [hget] at heq
        have hm : q.serializer.loads x = m := (Prod.mk.injEq _ _ _ _).mp heq |>.1 |> Option.some.inj
        have hst : setKey q.key xs st = st' := (Prod.mk.injEq _ _ _ _).mp heq |>.2
        have hrec := ih st' (by rw [← hst]; exact setKey_same _ _ _)
        simp [← hm, hrec.1, hrec.2]

theorem putE_spec {α β ε : Type} (key : String) (d : α → Except ε β)
    (bad : α) (rest : List α) (e : ε) (hbad : d bad = Except.error e) :
    ∀ (pre : List α) (st : Store β), (∀ m ∈ pre, (d m).isOk = true) →
      (putE key d (pre ++ bad :: rest) st).2 = some e
        ∧ ((putE key d (pre ++ bad :: rest) st).1) key
            = st key ++ pre.filterMap (fun m => (d m).toOption) := by
  intro pre
  induction pre with
  | nil =>
      intro st _
      simp [putE, hbad]
  | cons a pre' ih =>
      intro st hpre
      have ha : (d a).isOk = true := hpre a (by simp)
      obtain ⟨v, hv⟩ : ∃ v, d a = Except.ok v := by
        cases hda : d a with
        | error x =>
            rw [hda] at ha
            exact absurd ha (by simp [Except.isOk, Except.toBool])
        | ok v => exact ⟨v, rfl⟩
      have hpre' : ∀ m ∈ pre', (d m).isOk = true := fun m hm => hpre m (by simp [hm])
      have hrec := ih (rpush key v st) hpre'
      simp only [List.cons_append, putE, hv, List.append_eq]
      refine ⟨hrec.1, ?_⟩
      rw [hrec.2]
      simp [rpush, setKey_same, hv, List.filterMap_cons, Except.toOption]

theorem put_headE_spec {α β ε : Type} (key : String) (d : α → Except ε β)
    (bad : α) (rest : List α) (e : ε) (hbad : d bad = Except.error e) :
    ∀ (pre : List α) (st : Store β), (∀ m ∈ pre, (d m).isOk = true) →
      (put_headE key d (pre ++ bad :: rest) st).2 = some e
        ∧ ((put_headE key d (pre ++ bad :: rest) st).1) key
            = (pre.filterMap (fun m => (d m).toOption)).reverse ++ st key := by
  intro pre
  induction pre with
  | nil =>
      intro st _
      simp [put_headE, hbad]
  | cons a pre' ih =>
      intro st hpre
      have ha : (d a).isOk = true := hpre a (by simp)
      obtain ⟨v, hv⟩ : ∃ v, d a = Except.ok v := by
        cases hda : d a with
        | error x =>
            rw [hda] at ha
            exact absurd ha (by simp [Except.isOk, Except.toBool])
        | ok v => exact ⟨v, rfl⟩
      have hpre' : ∀ m ∈ pre', (d m).isOk = true := fun m hm => hpre m (by simp [hm])
      have hrec := ih (lpush key v st) hpre'
      simp only [List.cons_append, put_headE, hv, List.append_eq]
      refine ⟨hrec.1, ?_⟩
      rw [hrec.2]
      simp [lpush, setKey_same, hv, List.filterMap_cons, Except.toOption]

theorem consumeGo_tail_drain {α β : Type} (q : HotQueue α β) (b : Bool)
    (t : Option Nat) (hq : q.popEnd = PopEnd.tail) :
    ∀ (bs : List β) (st : Store β), st q.key = bs →
      (consumeGo q b t st).1 = bs.reverse.map q.serializer.loads
        ∧ ((consumeGo q b t st).2) q.key = [] := by
  intro bs
  induction bs using List.reverseRecOn with
  | nil =>
      intro st h
      rw [consumeGo_nil q b t st h]
      simpa using h
  | append_singleton l x ih =>
      intro st h
      have hget := get_tail_concat q b t st x l hq h
      rw [consumeGo]
      split
      · rename_i st' heq
        rw [hget] at heq
        simp at heq
      · rename_i m st' heq
        rw [hget] at heq
        have hm : q.serializer.loads x = m :=
          (Prod.mk.injEq _ _ _ _).mp heq |>.1 |> Option.some.inj
        have hst : setKey q.key l st = st' := (Prod.mk.injEq _ _ _ _).mp heq |>.2
        have hrec := ih st' (by rw [← hst]; exact setKey_same _ _ _)
        simp [← hm, hrec.1, hrec.2]

/-- A concrete serializer on naturals, used to exercise the theorems on
closed inputs: `dumps` shifts up by one, `loads` shifts back down. -/
def natSer : Serializer Nat Nat :=
  ⟨fun n => n + 1, fun v => v - 1⟩

/-- The store in which every key is absent. -/
def emptyStore : Store Nat :=
  fun _ => []

/-- Claim C1: for every sequence of messages M, calling `put(M...)` on a FIFO
queue (pop-end = head, i.e. class `HotQueue`) that is initially empty and then
making `len(M)` non-blocking `get()` calls returns the messages of M in their
original order. -/
theorem C1_fifo_put_then_gets_in_order {α β : Type} (q : HotQueue α β)
    (st : Store β) (msgs : List α)
    (hq : q.popEnd = PopEnd.head)
    (hempty : st q.key = [])
    (hround : ∀ m ∈ msgs, q.serializer.loads (q.serializer.dumps m) = m) :
    (q.getN false none msgs.length (q.put msgs st)).1 = msgs.map some := by
  have hput : (q.put msgs st) q.key = msgs.map q.serializer.dumps := by
    rw [put_key, hempty]
    simp
  have hlen : msgs.length ≤ ((q.put msgs st) q.key).length := by
    rw [hput]
    simp
  have h := getN_head q false none hq msgs.length (q.put msgs st) hlen
  rw [h.1, hput]
  rw [show msgs.length = (msgs.map q.serializer.dumps).length by simp, List.take_length]
  rw [List.map_map]
  exact List.map_congr_left (fun m hm => by simp [Function.comp, hround m hm])

/-- Witness for C1 at a concrete FIFO queue, store and message list. -/
theorem C1_witness :
    (mkHotQueue "jobs" natSer).popEnd = PopEnd.head
      ∧ emptyStore (mkHotQueue "jobs" natSer).key = []
      ∧ (∀ m ∈ [10, 20, 30], natSer.loads (natSer.dumps m) = m)
      ∧ ((mkHotQueue "jobs" natSer).getN false none 3
            ((mkHotQueue "jobs" natSer).put [10, 20, 30] emptyStore)).1
          = [some 10, some 20, some 30] :=
  ⟨rfl, rfl, by decide,
    C1_fifo_put_then_gets_in_order (mkHotQueue "jobs" natSer) emptyStore
      [10, 20, 30] rfl rfl (by decide)⟩

theorem lifo_drain {α β : Type} (q : HotQueue α β) (b : Bool)
    (st : Store β) (msgs : List α)
    (hq : q.popEnd = PopEnd.tail)
    (hempty : st q.key = [])
    (hround : ∀ m ∈ msgs, q.serializer.loads (q.serializer.dumps m) = m) :
    (q.getN b none msgs.length (q.put msgs st)).1 = msgs.reverse.map some := by
  have hput : (q.put msgs st) q.key = msgs.map q.serializer.dumps := by
    rw [put_key, hempty]
    simp
  have h := getN_tail_drain q b none hq (msgs.map q.serializer.dumps)
    (q.put msgs st) hput
  rw [show msgs.length = (msgs.map q.serializer.dumps).length by simp, h.1]
  rw [← List.map_reverse, List.map_map]
  exact List.map_congr_left
    (fun m hm => by simp [Function.comp, hround m (List.mem_reverse.mp hm)])

/-- Claim C2: for every sequence of messages M, calling `put(M...)` on an
initially empty LIFO queue (`HotStack`, pop-end = tail) and then making
`len(M)` `get()` calls returns M in reverse order — with the non-blocking
pop (`rpop`) and with the blocking pop (`brpop`) alike, since `HotStack`
pushes at the tail (inherited `rpush`) and pops at the tail. -/
theorem C2_lifo_put_then_gets_reversed {α β : Type} (q : HotQueue α β)
    (st : Store β) (msgs : List α)
    (hq : q.popEnd = PopEnd.tail)
    (hempty : st q.key = [])
    (hround : ∀ m ∈ msgs, q.serializer.loads (q.serializer.dumps m) = m) :
    (q.getN false none msgs.length (q.put msgs st)).1 = msgs.reverse.map some
      ∧ (q.getN true none msgs.length (q.put msgs st)).1 = msgs.reverse.map some :=
  ⟨lifo_drain q false st msgs hq hempty hround,
   lifo_drain q true st msgs hq hempty hround⟩

/-- Witness for C2 at a concrete LIFO stack, store and message list. -/
theorem C2_witness :
    (mkHotStack "undo" natSer).popEnd = PopEnd.tail
      ∧ emptyStore (mkHotStack "undo" natSer).key = []
      ∧ (∀ m ∈ [4, 5, 6], natSer.loads (natSer.dumps m) = m)
      ∧ ((mkHotStack "undo" natSer).getN false none 3
            ((mkHotStack "undo" natSer).put [4, 5, 6] emptyStore)).1
          = [some 6, some 5, some 4]
      ∧ ((mkHotStack "undo" natSer).getN true none 3
            ((mkHotStack "undo" natSer).put [4, 5, 6] emptyStore)).1
          = [some 6, some 5, some 4] :=
  ⟨rfl, rfl, by decide,
    (C2_lifo_put_then_gets_reversed (mkHotStack "undo" natSer) emptyStore
      [4, 5, 6] rfl rfl (by decide)).1,
    (C2_lifo_put_then_gets_reversed (mkHotStack "undo" natSer) emptyStore
      [4, 5, 6] rfl rfl (by decide)).2⟩

/-- Claim C3: starting from an empty queue, after pushing the k messages of
`msgs` with `put` and popping `j ≤ k` of them with (successful, non-blocking)
`get` calls, `len(queue)` returns exactly `k - j`.  In this embedding
`HotQueue.length` is a pure function of the store (`llen`, a read-only
command), so it cannot mutate the list.  The statement covers both pop-ends,
hence both `HotQueue` and `HotStack`. -/
theorem C3_length_counts_pushes_minus_pops {α β : Type} (q : HotQueue α β)
    (st : Store β) (msgs : List α) (j : Nat)
    (hempty : st q.key = [])
    (hj : j ≤ msgs.length) :
    q.length ((q.getN false none j (q.put msgs st)).2) = msgs.length - j := by
  have hput : (q.put msgs st) q.key = msgs.map q.serializer.dumps := by
    rw [put_key, hempty]
    simp
  have hlen : j ≤ ((q.put msgs st) q.key).length := by
    rw [hput]
    simpa using hj
  have h := getN_length q false none j (q.put msgs st) hlen
  unfold HotQueue.length llen
  rw [h, hput]
  simp

/-- Witness for C3: push three messages, pop two, length is one. -/
theorem C3_witness :
    emptyStore (mkHotQueue "work" natSer).key = []
      ∧ 2 ≤ 3
      ∧ (mkHotQueue "work" natSer).length
          (((mkHotQueue "work" natSer).getN false none 2
              ((mkHotQueue "work" natSer).put [7, 8, 9] emptyStore)).2) = 1 :=
  ⟨rfl, by decide,
    C3_length_counts_pushes_minus_pops (mkHotQueue "work" natSer) emptyStore
      [7, 8, 9] 2 rfl (by decide)⟩

/-- Claim C4: the storage key for a queue named `n` is exactly the literal
prefix `hotqueue` concatenated with `:` and `n`; every operation of the
adapter addresses the store through `HotQueue.key`, which is
`key_for_name(self.name)`, so two instances constructed with the same name
(whatever their class or serializer) derive the same key. -/
theorem C4_key_naming {α β : Type} (n : String) (q1 q2 : HotQueue α β)
    (h : q1.name = q2.name) :
    key_for_name n = "hotqueue:" ++ n
      ∧ q1.key = key_for_name q1.name
      ∧ q2.key = key_for_name q2.name
      ∧ q1.key = q2.key := by
  refine ⟨rfl, rfl, rfl, ?_⟩
  simp [HotQueue.key, h]

/-- Witness for C4: a `HotQueue` and a `HotStack` with the same name share
the key `hotqueue:alpha`. -/
theorem C4_witness :
    (mkHotQueue "alpha" natSer).name = (mkHotStack "alpha" natSer).name
      ∧ key_for_name "alpha" = "hotqueue:" ++ "alpha"
      ∧ (mkHotQueue "alpha" natSer).key = key_for_name (mkHotQueue "alpha" natSer).name
      ∧ (mkHotStack "alpha" natSer).key = key_for_name (mkHotStack "alpha" natSer).name
      ∧ (mkHotQueue "alpha" natSer).key = (mkHotStack "alpha" natSer).key :=
  ⟨rfl,
    (C4_key_naming "alpha" (mkHotQueue "alpha" natSer) (mkHotStack "alpha" natSer) rfl).1,
    (C4_key_naming "alpha" (mkHotQueue "alpha" natSer) (mkHotStack "alpha" natSer) rfl).2.1,
    (C4_key_naming "alpha" (mkHotQueue "alpha" natSer) (mkHotStack "alpha" natSer) rfl).2.2.1,
    (C4_key_naming "alpha" (mkHotQueue "alpha" natSer) (mkHotStack "alpha" natSer) rfl).2.2.2⟩

/-- Claim C5: `consume(**kwargs)` defaults `block` to true when the caller
does not pass one (first conjunct: passing nothing behaves exactly like
passing `block=True`); it obtains each yielded element via one `get` call and
stops at the first `get` that returns `None`, which in this single-consumer
embedding means it yields every message in the list (in pop order determined
by the class's pop-end) and leaves the list empty; each yielded element is an
actual deserialized message, never `None`. -/
theorem C5_consume_defaults_and_drains {α β : Type} (q : HotQueue α β)
    (t : Option Nat) (st : Store β) :
    q.consume none t st = q.consume (some true) t st
      ∧ (q.consume none t st).1
          = (match q.popEnd with
             | PopEnd.head => (st q.key).map q.serializer.loads
             | PopEnd.tail => (st q.key).reverse.map q.serializer.loads)
      ∧ ((q.consume none t st).2) q.key = [] := by
  refine ⟨rfl, ?_, ?_⟩
  · cases hq : q.popEnd
    · exact (consumeGo_head_drain q true t hq (st q.key) st rfl).1
    · exact (consumeGo_tail_drain q true t hq (st q.key) st rfl).1
  · cases hq : q.popEnd
    · exact (consumeGo_head_drain q true t hq (st q.key) st rfl).2
    · exact (consumeGo_tail_drain q true t hq (st q.key) st rfl).2

/-- Claim C6: a non-blocking `get` on an empty queue returns `None` with the
store unchanged, and a blocking `get` whose timeout elapses with no message
(the empty list stayed empty) likewise returns `None`; no error is raised and
no deserialization is attempted — the result is `None` for every serializer
(the code guards `loads` with `if msg is not None`), which the universal
quantification over the queue's serializer expresses. -/
theorem C6_empty_get_returns_none {α β : Type} (q : HotQueue α β)
    (t : Option Nat) (st : Store β) (hempty : st q.key = []) :
    q.get false t st = (none, st) ∧ q.get true t st = (none, st) :=
  ⟨get_nil q false t st hempty, get_nil q true t st hempty⟩

/-- Witness for C6 on a concrete empty store. -/
theorem C6_witness :
    emptyStore (mkHotQueue "inbox" natSer).key = []
      ∧ (mkHotQueue "inbox" natSer).get false (some 5) emptyStore = (none, emptyStore)
      ∧ (mkHotQueue "inbox" natSer).get true (some 5) emptyStore = (none, emptyStore) :=
  ⟨rfl,
    (C6_empty_get_returns_none (mkHotQueue "inbox" natSer) (some 5) emptyStore rfl).1,
    (C6_empty_get_returns_none (mkHotQueue "inbox" natSer) (some 5) emptyStore rfl).2⟩

/-- Claim C7: in a blocking `get`, an unset timeout (`None`) is normalized to
`0` (`if timeout is None: timeout = 0`), so `timeout=None` and `timeout=0`
issue the very same single blocking-pop call with timeout `0` — the store's
convention for "wait indefinitely" — and behave identically; when a raw value
is retrieved it is deserialized via the configured serializer before being
returned (here for the FIFO class, whose blocking pop takes the head). -/
theorem C7_block_timeout_normalization {α β : Type} (q : HotQueue α β)
    (st : Store β) (x : β) (xs : List β)
    (hq : q.popEnd = PopEnd.head) (hcons : st q.key = x :: xs) :
    effTimeout none = 0
      ∧ effTimeout (some 0) = 0
      ∧ q.get true none st = q.get true (some 0) st
      ∧ (q.get true none st).1 = some (q.serializer.loads x) := by
  refine ⟨rfl, rfl, rfl, ?_⟩
  rw [get_head_cons q true none st x xs hq hcons]

/-- Witness for C7 on a store holding one payload at the queue's key. -/
theorem C7_witness :
    (mkHotQueue "tasks" natSer).popEnd = PopEnd.head
      ∧ setKey "hotqueue:tasks" [41] emptyStore (mkHotQueue "tasks" natSer).key = 41 :: []
      ∧ effTimeout none = 0
      ∧ effTimeout (some 0) = 0
      ∧ (mkHotQueue "tasks" natSer).get true none (setKey "hotqueue:tasks" [41] emptyStore)
          = (mkHotQueue "tasks" natSer).get true (some 0) (setKey "hotqueue:tasks" [41] emptyStore)
      ∧ ((mkHotQueue "tasks" natSer).get true none
            (setKey "hotqueue:tasks" [41] emptyStore)).1 = some (natSer.loads 41) :=
  ⟨rfl, rfl,
    (C7_block_timeout_normalization (mkHotQueue "tasks" natSer)
      (setKey "hotqueue:tasks" [41] emptyStore) 41 [] rfl rfl).1,
    (C7_block_timeout_normalization (mkHotQueue "tasks" natSer)
      (setKey "hotqueue:tasks" [41] emptyStore) 41 [] rfl rfl).2.1,
    (C7_block_timeout_normalization (mkHotQueue "tasks" natSer)
      (setKey "hotqueue:tasks" [41] emptyStore) 41 [] rfl rfl).2.2.1,
    (C7_block_timeout_normalization (mkHotQueue "tasks" natSer)
      (setKey "hotqueue:tasks" [41] emptyStore) 41 [] rfl rfl).2.2.2⟩

/-- Claim C8: `put_head("x", "y")` on an initially empty FIFO queue followed
by two `get()` calls returns `"y"` first and then `"x"`: each message is
LPUSHed one at a time in call order, so repeated head-insertion reverses the
arguments' relative order and the last argument ends up frontmost (second
conjunct: the general reversal law for any argument list and store). -/
theorem C8_put_head_reverses {α β : Type} (q : HotQueue α β)
    (st : Store β) (x y : α) (msgs : List α)
    (hq : q.popEnd = PopEnd.head)
    (hempty : st q.key = [])
    (hrx : q.serializer.loads (q.serializer.dumps x) = x)
    (hry : q.serializer.loads (q.serializer.dumps y) = y) :
    (q.getN false none 2 (q.put_head [x, y] st)).1 = [some y, some x]
      ∧ (q.put_head msgs st) q.key
          = (msgs.map q.serializer.dumps).reverse ++ st q.key := by
  refine ⟨?_, put_head_key q msgs st⟩
  have hlist : (q.put_head [x, y] st) q.key
      = [q.serializer.dumps y, q.serializer.dumps x] := by
    rw [put_head_key, hempty]
    simp
  have hlen : 2 ≤ ((q.put_head [x, y] st) q.key).length := by
    rw [hlist]
    simp
  have h := getN_head q false none hq 2 (q.put_head [x, y] st) hlen
  rw [h.1, hlist]
  simp [hrx, hry]

/-- Witness for C8 with two concrete messages. -/
theorem C8_witness :
    (mkHotQueue "front" natSer).popEnd = PopEnd.head
      ∧ emptyStore (mkHotQueue "front" natSer).key = []
      ∧ natSer.loads (natSer.dumps 1) = 1
      ∧ natSer.loads (natSer.dumps 2) = 2
      ∧ ((mkHotQueue "front" natSer).getN false none 2
            ((mkHotQueue "front" natSer).put_head [1, 2] emptyStore)).1
          = [some 2, some 1] :=
  ⟨rfl, rfl, by decide, by decide,
    (C8_put_head_reverses (mkHotQueue "front" natSer) emptyStore 1 2 []
      rfl rfl (by decide) (by decide)).1⟩

/-- Claim C9: `clear()` deletes the underlying list key for an arbitrary
store — whatever the list's current length — so `len(queue)` afterwards is 0
(first conjunct); `clear()` is idempotent, again for an arbitrary store
(second conjunct); and clearing an absent queue is a no-op on the store —
every key, the queue's own included, is unchanged (third conjunct, pointwise
at any key `k`, under the absence assumption local to that conjunct). -/
theorem C9_clear_deletes_and_is_idempotent {α β : Type} (q : HotQueue α β)
    (st : Store β) (k : String) :
    q.length (q.clear st) = 0
      ∧ q.clear (q.clear st) = q.clear st
      ∧ (st q.key = [] → q.clear st k = st k) := by
  refine ⟨?_, ?_, ?_⟩
  · simp [HotQueue.length, llen, HotQueue.clear, delKey, setKey_same]
  · funext k'
    by_cases hk' : k' = q.key <;> simp [HotQueue.clear, delKey, setKey, hk']
  · intro habsent
    by_cases hk : k = q.key
    · subst hk
      simp [HotQueue.clear, delKey, setKey_same, habsent]
    · simp [HotQueue.clear, delKey, setKey_other _ _ hk]

/-- Witness for C9: the deletion and idempotence parts on a concrete
two-element queue, the no-op part on a concrete absent queue. -/
theorem C9_witness :
    (mkHotQueue "gone" natSer).length
        ((mkHotQueue "gone" natSer).clear (setKey "hotqueue:gone" [1, 2] emptyStore)) = 0
      ∧ (mkHotQueue "gone" natSer).clear
            ((mkHotQueue "gone" natSer).clear (setKey "hotqueue:gone" [1, 2] emptyStore))
          = (mkHotQueue "gone" natSer).clear (setKey "hotqueue:gone" [1, 2] emptyStore)
      ∧ emptyStore (mkHotQueue "gone" natSer).key = []
      ∧ (mkHotQueue "gone" natSer).clear emptyStore "hotqueue:gone"
          = emptyStore "hotqueue:gone" :=
  ⟨(C9_clear_deletes_and_is_idempotent (mkHotQueue "gone" natSer)
      (setKey "hotqueue:gone" [1, 2] emptyStore) "hotqueue:gone").1,
    (C9_clear_deletes_and_is_idempotent (mkHotQueue "gone" natSer)
      (setKey "hotqueue:gone" [1, 2] emptyStore) "hotqueue:gone").2.1,
    rfl,
    (C9_clear_deletes_and_is_idempotent (mkHotQueue "gone" natSer) emptyStore
      "hotqueue:gone").2.2 rfl⟩

/-- A fallible serializer used to exercise C10: naturals below 100 serialize
(shifted up by one), larger ones fail the way an unpicklable object would. -/
def fragileDumps : Nat → Except String Nat :=
  fun n => if n < 100 then Except.ok (n + 1) else Except.error "unserializable"

/-- Claim C10 (implicit): `put` and `put_head` are not atomic across their
variadic arguments.  Each message is serialized and pushed individually, so
when serialization first fails on message `bad` (after the prefix `pre` of
messages that serialize fine), the error surfaces with the serializations of
`pre` already pushed onto the list — appended at the tail for `put`, inserted
in reverse at the head for `put_head` — and the messages after `bad` never
pushed. -/
theorem C10_put_not_atomic_on_serializer_failure {α β ε : Type} (key : String)
    (d : α → Except ε β) (pre : List α) (bad : α) (rest : List α) (e : ε)
    (st : Store β)
    (hbad : d bad = Except.error e)
    (hpre : ∀ m ∈ pre, (d m).isOk = true) :
    (putE key d (pre ++ bad :: rest) st).2 = some e
      ∧ (putE key d (pre ++ bad :: rest) st).1 key
          = st key ++ pre.filterMap (fun m => (d m).toOption)
      ∧ (put_headE key d (pre ++ bad :: rest) st).2 = some e
      ∧ (put_headE key d (pre ++ bad :: rest) st).1 key
          = (pre.filterMap (fun m => (d m).toOption)).reverse ++ st key := by
  have h1 := putE_spec key d bad rest e hbad pre st hpre
  have h2 := put_headE_spec key d bad rest e hbad pre st hpre
  exact ⟨h1.1, h1.2, h2.1, h2.2⟩

/-- Witness for C10: serializing `[1, 2, 300, 3]` fails on `300`, leaving the
serializations of `1` and `2` on the list and never reaching `3`. -/
theorem C10_witness :
    fragileDumps 300 = Except.error "unserializable"
      ∧ (∀ m ∈ [1, 2], (fragileDumps m).isOk = true)
      ∧ (putE "hotqueue:jobs" fragileDumps ([1, 2] ++ 300 :: [3]) emptyStore).2
          = some "unserializable"
      ∧ (putE "hotqueue:jobs" fragileDumps ([1, 2] ++ 300 :: [3]) emptyStore).1
          "hotqueue:jobs"
          = emptyStore "hotqueue:jobs"
            ++ [1, 2].filterMap (fun m => (fragileDumps m).toOption)
      ∧ (put_headE "hotqueue:jobs" fragileDumps ([1, 2] ++ 300 :: [3]) emptyStore).2
          = some "unserializable"
      ∧ (put_headE "hotqueue:jobs" fragileDumps ([1, 2] ++ 300 :: [3]) emptyStore).1
          "hotqueue:jobs"
          = ([1, 2].filterMap (fun m => (fragileDumps m).toOption)).reverse
            ++ emptyStore "hotqueue:jobs" :=
  ⟨rfl, by decide,
    (C10_put_not_atomic_on_serializer_failure "hotqueue:jobs" fragileDumps
      [1, 2] 300 [3] "unserializable" emptyStore rfl (by decide)).1,
    (C10_put_not_atomic_on_serializer_failure "hotqueue:jobs" fragileDumps
      [1, 2] 300 [3] "unserializable" emptyStore rfl (by decide)).2.1,
    (C10_put_not_atomic_on_serializer_failure "hotqueue:jobs" fragileDumps
      [1, 2] 300 [3] "unserializable" emptyStore rfl (by decide)).2.2.1,
    (C10_put_not_atomic_on_serializer_failure "hotqueue:jobs" fragileDumps
      [1, 2] 300 [3] "unserializable" emptyStore rfl (by decide)).2.2.2⟩
